import Mathlib

/-!
Verification of the Black-Scholes dashboard (`app.py`).

The computational core of the program is embedded over `ℝ`:
the standard normal density and cumulative distribution are defined as
Gaussian integrals, the pricing functions `black_scholes_call` /
`black_scholes_put`, the Greeks function `option_greeks` and the grid /
curve evaluation helpers `plot_pnl_heatmap` / `plot_greek_curve` follow
the source line by line (the plotting calls, which only render the
computed arrays, are not part of the embedding).
-/

open Real MeasureTheory Filter Set intervalIntegral Topology

noncomputable section

/-- Standard normal probability density (`si.norm.pdf`). -/
def normPdf (x : ℝ) : ℝ := Real.exp (-(x ^ 2) / 2) / Real.sqrt (2 * Real.pi)

/-- Standard normal cumulative distribution function (`si.norm.cdf`). -/
def normCdf (x : ℝ) : ℝ := ∫ t in Set.Iic x, normPdf t

/-- `d1` term, from lines 11, 16 and 24 of `app.py`. -/
def d1 (S K T r sigma : ℝ) : ℝ :=
  (Real.log (S / K) + (r + 0.5 * sigma ^ 2) * T) / (sigma * Real.sqrt T)

/-- `d2` term, from lines 12, 17 and 25 of `app.py`. -/
def d2 (S K T r sigma : ℝ) : ℝ := d1 S K T r sigma - sigma * Real.sqrt T

/-- `black_scholes_call`, lines 10-13 of `app.py`. -/
def black_scholes_call (S K T r sigma : ℝ) : ℝ :=
  S * normCdf (d1 S K T r sigma) -
    K * Real.exp (-r * T) * normCdf (d2 S K T r sigma)

/-- `black_scholes_put`, lines 15-18 of `app.py`. -/
def black_scholes_put (S K T r sigma : ℝ) : ℝ :=
  K * Real.exp (-r * T) * normCdf (-d2 S K T r sigma) -
    S * normCdf (-d1 S K T r sigma)

/-- The five values returned by `option_greeks`, in the order of the
`return Delta, Gamma, Vega, Theta, Rho` statement. -/
structure Greeks where
  Delta : ℝ
  Gamma : ℝ
  Vega : ℝ
  Theta : ℝ
  Rho : ℝ

/-- `option_greeks`, lines 23-40 of `app.py`.  The call in the app passes
`option` explicitly (the source default is `"call"`). -/
def option_greeks (S K T r sigma : ℝ) (option : String) : Greeks :=
  let d1v := d1 S K T r sigma
  let d2v := d2 S K T r sigma
  let pdf := normPdf d1v
  if option = "call" then
    ⟨normCdf d1v,
      pdf / (S * sigma * Real.sqrt T),
      S * pdf * Real.sqrt T,
      -(S * pdf * sigma) / (2 * Real.sqrt T) -
        r * K * Real.exp (-r * T) * normCdf d2v,
      K * T * Real.exp (-r * T) * normCdf d2v⟩
  else
    ⟨normCdf d1v - 1,
      pdf / (S * sigma * Real.sqrt T),
      S * pdf * Real.sqrt T,
      -(S * pdf * sigma) / (2 * Real.sqrt T) +
        r * K * Real.exp (-r * T) * normCdf (-d2v),
      -K * T * Real.exp (-r * T) * normCdf (-d2v)⟩

/-- `np.linspace lo hi n` evaluated at index `i` (`n ≥ 2` in all uses). -/
def linspace (lo hi : ℝ) (n : ℕ) (i : ℕ) : ℝ :=
  lo + i * (hi - lo) / ((n - 1 : ℕ) : ℝ)

/-- The order in which the nested `for i / for j` loop of
`plot_pnl_heatmap` visits the 8×8 index grid. -/
def heatIndices : List (Fin 8 × Fin 8) :=
  (List.finRange 8).flatMap fun i => (List.finRange 8).map fun j => (i, j)

/-- The price used by one heatmap cell: the `if option == "call"` branch
in lines 52-55 of `app.py`. -/
def heatPrice (K T r : ℝ) (option : String) (S sig : ℝ) : ℝ :=
  if option = "call" then black_scholes_call S K T r sig
  else black_scholes_put S K T r sig

/-- One assignment `pnl[i, j] = price - purchase_price` of the loop body,
writing the value `v ij` into cell `ij` of the matrix. -/
def writeStep (v : Fin 8 × Fin 8 → ℝ) (pnl : Fin 8 → Fin 8 → ℝ)
    (ij : Fin 8 × Fin 8) : Fin 8 → Fin 8 → ℝ :=
  fun i j => if i = ij.1 ∧ j = ij.2 then v ij else pnl i j

/-- The `pnl` matrix computed by `plot_pnl_heatmap` (lines 45-56 of
`app.py`): starting from `np.zeros((8, 8))`, the nested loop writes
`price - purchase_price` into each cell. -/
def plot_pnl_heatmap (K T r purchase_price : ℝ) (option : String) :
    Fin 8 → Fin 8 → ℝ :=
  heatIndices.foldl
    (writeStep fun ij =>
      heatPrice K T r option (linspace 50 150 8 ij.1) (linspace 0.1 0.6 8 ij.2) -
        purchase_price)
    (fun _ _ => 0)

/-- The loop body of `plot_greek_curve` (lines 81-92 of `app.py`):
append the selected Greek of `option_greeks` at spot `S` to `values`. -/
def greekStep (K T r sigma : ℝ) (greek option : String)
    (values : List ℝ) (S : ℝ) : List ℝ :=
  let g := option_greeks S K T r sigma option
  if greek = "Delta" then values ++ [g.Delta]
  else if greek = "Gamma" then values ++ [g.Gamma]
  else if greek = "Vega" then values ++ [g.Vega]
  else if greek = "Theta" then values ++ [g.Theta]
  else if greek = "Rho" then values ++ [g.Rho]
  else values

/-- The `values` list computed by `plot_greek_curve` (lines 77-92 of
`app.py`) over `np.linspace(50, 150, 100)`. -/
def plot_greek_curve (K T r sigma : ℝ) (greek option : String) : List ℝ :=
  ((List.range 100).map fun k => linspace 50 150 100 k).foldl
    (greekStep K T r sigma greek option) []

/-- The two strings offered by the dashboard's option-type radio
selector, line 125 of `app.py`. -/
def radioOptions : List String := ["Call", "Put"]

end

/-! ### Basic facts about the standard normal density and distribution -/

lemma normPdf_eq_fun :
    normPdf = fun x => Real.exp (-(1 / 2 : ℝ) * x ^ 2) / Real.sqrt (2 * Real.pi) := by
  funext x
  simp only [normPdf]
  rw [show -(x ^ 2) / 2 = -(1 / 2 : ℝ) * x ^ 2 by ring]

lemma integrable_normPdf : Integrable normPdf := by
  rw [normPdf_eq_fun]
  exact (integrable_exp_neg_mul_sq (show (0:ℝ) < 1 / 2 by norm_num)).div_const _

lemma integral_normPdf : ∫ x, normPdf x = 1 := by
  rw [normPdf_eq_fun]
  rw [MeasureTheory.integral_div, integral_gaussian,
    show Real.pi / (1 / 2 : ℝ) = 2 * Real.pi by ring]
  exact div_self (ne_of_gt (Real.sqrt_pos.2 (by positivity)))

lemma normPdf_pos (x : ℝ) : 0 < normPdf x :=
  div_pos (Real.exp_pos _) (Real.sqrt_pos.2 (by positivity))

lemma continuous_normPdf : Continuous normPdf := by
  unfold normPdf
  exact (Real.continuous_exp.comp ((continuous_pow 2).neg.div_const 2)).div_const _

lemma intervalIntegrable_normPdf (a b : ℝ) :
    IntervalIntegrable normPdf volume a b :=
  continuous_normPdf.intervalIntegrable a b

lemma normPdf_neg (x : ℝ) : normPdf (-x) = normPdf x := by
  simp only [normPdf, neg_sq]

lemma normCdf_neg_eq (x : ℝ) : normCdf (-x) = ∫ t in Ioi x, normPdf t := by
  have h := integral_comp_neg_Iic (-x) normPdf
  simp only [normPdf_neg, neg_neg] at h
  exact h

lemma normCdf_add_neg (x : ℝ) : normCdf x + normCdf (-x) = 1 := by
  rw [normCdf_neg_eq, normCdf,
    integral_Iic_add_Ioi integrable_normPdf.integrableOn
      integrable_normPdf.integrableOn]
  exact integral_normPdf

lemma normCdf_zero : normCdf 0 = 1 / 2 := by
  have h := normCdf_add_neg 0
  rw [neg_zero] at h
  linarith

lemma normCdf_sub_normCdf (a b : ℝ) :
    normCdf b - normCdf a = ∫ t in a..b, normPdf t :=
  integral_Iic_sub_Iic integrable_normPdf.integrableOn
    integrable_normPdf.integrableOn

lemma normCdf_strictMono : StrictMono normCdf := by
  intro a b hab
  have h : 0 < ∫ t in a..b, normPdf t :=
    intervalIntegral_pos_of_pos (intervalIntegrable_normPdf a b)
      (fun x => normPdf_pos x) hab
  have h2 := normCdf_sub_normCdf a b
  linarith

lemma normCdf_pos (x : ℝ) : 0 < normCdf x := by
  have h1 : 0 ≤ normCdf (x - 1) := by
    rw [normCdf]
    exact setIntegral_nonneg measurableSet_Iic fun t _ => (normPdf_pos t).le
  exact lt_of_le_of_lt h1 (normCdf_strictMono (by linarith))

lemma normCdf_lt_one (x : ℝ) : normCdf x < 1 := by
  have h1 := normCdf_add_neg x
  have h2 := normCdf_pos (-x)
  linarith

lemma normCdf_eq_add_intervalIntegral (y : ℝ) :
    normCdf y = normCdf 0 + ∫ t in (0:ℝ)..y, normPdf t := by
  have h := normCdf_sub_normCdf 0 y
  linarith

lemma hasDerivAt_normCdf (x : ℝ) : HasDerivAt normCdf (normPdf x) x := by
  have hd : HasDerivAt (fun y => ∫ t in (0:ℝ)..y, normPdf t) (normPdf x) x :=
    integral_hasDerivAt_right (intervalIntegrable_normPdf 0 x)
      (continuous_normPdf.stronglyMeasurableAtFilter _ _)
      continuous_normPdf.continuousAt
  have h2 : HasDerivAt (fun y => normCdf 0 + ∫ t in (0:ℝ)..y, normPdf t)
      (normPdf x) x := hd.const_add _
  exact h2.congr_of_eventuallyEq
    (Eventually.of_forall fun y => normCdf_eq_add_intervalIntegral y)

lemma continuous_normCdf : Continuous normCdf :=
  continuous_iff_continuousAt.2 fun x => (hasDerivAt_normCdf x).continuousAt

lemma tendsto_normCdf_atTop : Tendsto normCdf atTop (𝓝 1) := by
  have h0 : Tendsto (fun y : ℝ => ∫ t in (0:ℝ)..y, normPdf t) atTop
      (𝓝 (∫ t in Ioi (0:ℝ), normPdf t)) :=
    intervalIntegral_tendsto_integral_Ioi 0
      integrable_normPdf.integrableOn tendsto_id
  have h1 : Tendsto (fun y => normCdf 0 + ∫ t in (0:ℝ)..y, normPdf t) atTop
      (𝓝 (normCdf 0 + ∫ t in Ioi (0:ℝ), normPdf t)) :=
    tendsto_const_nhds.add h0
  have h2 : normCdf 0 + ∫ t in Ioi (0:ℝ), normPdf t = 1 := by
    rw [normCdf, integral_Iic_add_Ioi integrable_normPdf.integrableOn
      integrable_normPdf.integrableOn]
    exact integral_normPdf
  rw [h2] at h1
  exact h1.congr fun y => (normCdf_eq_add_intervalIntegral y).symm

lemma tendsto_normCdf_atBot : Tendsto normCdf atBot (𝓝 0) := by
  have h : ∀ y : ℝ, 1 - normCdf (-y) = normCdf y := fun y => by
    have := normCdf_add_neg y; linarith
  have h2 : Tendsto (fun y : ℝ => -y) atBot atTop := tendsto_neg_atBot_atTop
  have h3 : Tendsto (fun y : ℝ => 1 - normCdf (-y)) atBot (𝓝 (1 - 1)) :=
    tendsto_const_nhds.sub (tendsto_normCdf_atTop.comp h2)
  rw [show (1:ℝ) - 1 = 0 by norm_num] at h3
  exact h3.congr h

/-! ### Helper lemmas about the embedded program functions -/

lemma bs_parity (S K T r sigma : ℝ) :
    black_scholes_call S K T r sigma - black_scholes_put S K T r sigma =
      S - K * Real.exp (-r * T) := by
  have h1 := normCdf_add_neg (d1 S K T r sigma)
  have h2 := normCdf_add_neg (d2 S K T r sigma)
  unfold black_scholes_call black_scholes_put
  linear_combination S * h1 - K * Real.exp (-r * T) * h2

lemma foldl_writeStep_not_mem (v : Fin 8 × Fin 8 → ℝ)
    (l : List (Fin 8 × Fin 8)) (g : Fin 8 → Fin 8 → ℝ)
    (p : Fin 8 × Fin 8) (hp : p ∉ l) :
    l.foldl (writeStep v) g p.1 p.2 = g p.1 p.2 := by
  induction l generalizing g with
  | nil => rfl
  | cons x t ih =>
    have hx : p ≠ x := fun h => hp (h ▸ List.mem_cons_self x t)
    have ht : p ∉ t := fun h => hp (List.mem_cons_of_mem x h)
    rw [List.foldl_cons, ih _ ht]
    simp only [writeStep]
    rw [if_neg]
    intro hc
    exact hx (Prod.ext hc.1 hc.2)

lemma foldl_writeStep_mem (v : Fin 8 × Fin 8 → ℝ)
    (l : List (Fin 8 × Fin 8)) (g : Fin 8 → Fin 8 → ℝ)
    (p : Fin 8 × Fin 8) (hp : p ∈ l) :
    l.foldl (writeStep v) g p.1 p.2 = v p := by
  induction l generalizing g with
  | nil => cases hp
  | cons x t ih =>
    by_cases hpt : p ∈ t
    · rw [List.foldl_cons]
      exact ih _ hpt
    · have hpx : p = x := by
        rcases List.mem_cons.1 hp with h | h
        · exact h
        · exact absurd h hpt
      rw [List.foldl_cons, foldl_writeStep_not_mem v t _ p hpt]
      simp only [writeStep]
      rw [if_pos ⟨congrArg Prod.fst hpx, congrArg Prod.snd hpx⟩, hpx]

lemma foldl_append_map {α β : Type*} (f : α → β) (l : List α) (acc : List β) :
    l.foldl (fun vs x => vs ++ [f x]) acc = acc ++ l.map f := by
  induction l generalizing acc with
  | nil => simp
  | cons x t ih => simp [List.foldl_cons, ih]

lemma key_identity (S K T r sigma : ℝ) (hS : 0 < S) (hK : 0 < K)
    (hT : 0 < T) (hsigma : 0 < sigma) :
    S * normPdf (d1 S K T r sigma) =
      K * Real.exp (-r * T) * normPdf (d2 S K T r sigma) := by
  set u := sigma * Real.sqrt T with hu_def
  have hu : 0 < u := mul_pos hsigma (Real.sqrt_pos.2 hT)
  have hu2 : u ^ 2 = sigma ^ 2 * T := by
    rw [hu_def, mul_pow, Real.sq_sqrt hT.le]
  have hsq : d1 S K T r sigma ^ 2 / 2 - d2 S K T r sigma ^ 2 / 2 =
      Real.log (S / K) + r * T := by
    have e1 : d2 S K T r sigma = d1 S K T r sigma - u := rfl
    have e2 : d1 S K T r sigma * u =
        Real.log (S / K) + (r + 0.5 * sigma ^ 2) * T := by
      show ((Real.log (S / K) + (r + 0.5 * sigma ^ 2) * T) / u) * u = _
      field_simp
    rw [e1]
    have e3 : d1 S K T r sigma ^ 2 / 2 - (d1 S K T r sigma - u) ^ 2 / 2 =
        d1 S K T r sigma * u - u ^ 2 / 2 := by ring
    rw [e3, e2, hu2]
    ring
  have e4 : -(d1 S K T r sigma ^ 2) / 2 =
      -(d2 S K T r sigma ^ 2) / 2 - (Real.log (S / K) + r * T) := by
    linarith
  have hSK : Real.exp (Real.log (S / K)) = S / K :=
    Real.exp_log (div_pos hS hK)
  have hc : (0:ℝ) < Real.sqrt (2 * Real.pi) :=
    Real.sqrt_pos.2 (by positivity)
  unfold normPdf
  rw [e4, Real.exp_sub, Real.exp_add, hSK,
    show -r * T = -(r * T) by ring, Real.exp_neg]
  have he : (0:ℝ) < Real.exp (r * T) := Real.exp_pos _
  field_simp
  ring

lemma hasDerivAt_bs_call (K T r sigma : ℝ) (hK : 0 < K) (hT : 0 < T)
    (hsigma : 0 < sigma) {S : ℝ} (hS : 0 < S) :
    HasDerivAt (fun s => black_scholes_call s K T r sigma)
      (normCdf (d1 S K T r sigma)) S := by
  have hu : 0 < sigma * Real.sqrt T :=
    mul_pos hsigma (Real.sqrt_pos.2 hT)
  have hSK : S / K ≠ 0 := ne_of_gt (div_pos hS hK)
  have hdiv : HasDerivAt (fun s : ℝ => s / K) (1 / K) S := by
    simpa using (hasDerivAt_id S).div_const K
  have hlog : HasDerivAt (fun s : ℝ => Real.log (s / K)) (1 / S) S := by
    have h := hdiv.log hSK
    convert h using 1
    field_simp
  have hd1 : HasDerivAt (fun s => d1 s K T r sigma)
      (1 / S / (sigma * Real.sqrt T)) S := by
    simpa [d1] using
      (hlog.add_const ((r + 0.5 * sigma ^ 2) * T)).div_const
        (sigma * Real.sqrt T)
  have hd2 : HasDerivAt (fun s => d2 s K T r sigma)
      (1 / S / (sigma * Real.sqrt T)) S := by
    simpa [d2] using hd1.sub_const (sigma * Real.sqrt T)
  have hN1 : HasDerivAt (fun s => normCdf (d1 s K T r sigma))
      (normPdf (d1 S K T r sigma) * (1 / S / (sigma * Real.sqrt T))) S :=
    (hasDerivAt_normCdf _).comp S hd1
  have hN2 : HasDerivAt (fun s => normCdf (d2 s K T r sigma))
      (normPdf (d2 S K T r sigma) * (1 / S / (sigma * Real.sqrt T))) S :=
    (hasDerivAt_normCdf _).comp S hd2
  have hterm1 : HasDerivAt (fun s => s * normCdf (d1 s K T r sigma))
      (1 * normCdf (d1 S K T r sigma) +
        S * (normPdf (d1 S K T r sigma) * (1 / S / (sigma * Real.sqrt T)))) S :=
    (hasDerivAt_id S).mul hN1
  have hterm2 : HasDerivAt
      (fun s => K * Real.exp (-r * T) * normCdf (d2 s K T r sigma))
      (K * Real.exp (-r * T) *
        (normPdf (d2 S K T r sigma) * (1 / S / (sigma * Real.sqrt T)))) S :=
    hN2.const_mul _
  have h := hterm1.sub hterm2
  have hkey := key_identity S K T r sigma hS hK hT hsigma
  have hfun : (fun s => black_scholes_call s K T r sigma) =
      fun s => s * normCdf (d1 s K T r sigma) -
        K * Real.exp (-r * T) * normCdf (d2 s K T r sigma) := rfl
  rw [hfun]
  convert h using 1
  have ha : S * (normPdf (d1 S K T r sigma) * (1 / S / (sigma * Real.sqrt T))) -
      K * Real.exp (-r * T) *
        (normPdf (d2 S K T r sigma) * (1 / S / (sigma * Real.sqrt T))) = 0 := by
    have := congrArg (fun x => x * (1 / S / (sigma * Real.sqrt T))) hkey
    simp only at this
    linarith [this]
  linarith [ha]

lemma call_monotoneOn (K T r sigma : ℝ) (hK : 0 < K) (hT : 0 < T)
    (hsigma : 0 < sigma) :
    MonotoneOn (fun s => black_scholes_call s K T r sigma) (Ioi 0) := by
  have hint : interior (Ioi (0:ℝ)) = Ioi 0 := isOpen_Ioi.interior_eq
  apply monotoneOn_of_deriv_nonneg (convex_Ioi 0)
  · intro x hx
    exact ((hasDerivAt_bs_call K T r sigma hK hT hsigma
      (mem_Ioi.1 hx)).continuousAt).continuousWithinAt
  · rw [hint]
    intro x hx
    exact ((hasDerivAt_bs_call K T r sigma hK hT hsigma
      (mem_Ioi.1 hx)).differentiableAt).differentiableWithinAt
  · rw [hint]
    intro x hx
    rw [(hasDerivAt_bs_call K T r sigma hK hT hsigma (mem_Ioi.1 hx)).deriv]
    exact (normCdf_pos _).le

lemma put_antitoneOn (K T r sigma : ℝ) (hK : 0 < K) (hT : 0 < T)
    (hsigma : 0 < sigma) :
    AntitoneOn (fun s => black_scholes_put s K T r sigma) (Ioi 0) := by
  have hint : interior (Ioi (0:ℝ)) = Ioi 0 := isOpen_Ioi.interior_eq
  have hrepr : ∀ s : ℝ, black_scholes_put s K T r sigma =
      (black_scholes_call s K T r sigma - s) + K * Real.exp (-r * T) :=
    fun s => by have := bs_parity s K T r sigma; linarith
  have haux : AntitoneOn
      (fun s => black_scholes_call s K T r sigma - s) (Ioi 0) := by
    apply antitoneOn_of_deriv_nonpos (convex_Ioi 0)
    · intro x hx
      exact (((hasDerivAt_bs_call K T r sigma hK hT hsigma
        (mem_Ioi.1 hx)).sub (hasDerivAt_id x)).continuousAt).continuousWithinAt
    · rw [hint]
      intro x hx
      exact (((hasDerivAt_bs_call K T r sigma hK hT hsigma
        (mem_Ioi.1 hx)).sub (hasDerivAt_id x)).differentiableAt).differentiableWithinAt
    · rw [hint]
      intro x hx
      have hder : HasDerivAt (fun s => black_scholes_call s K T r sigma - s)
          (normCdf (d1 x K T r sigma) - 1) x :=
        (hasDerivAt_bs_call K T r sigma hK hT hsigma
          (mem_Ioi.1 hx)).sub (hasDerivAt_id x)
      rw [hder.deriv]
      have := normCdf_lt_one (d1 x K T r sigma)
      linarith
  intro a ha b hb hab
  show black_scholes_put b K T r sigma ≤ black_scholes_put a K T r sigma
  rw [hrepr a, hrepr b]
  have h := haux ha hb hab
  simp only [] at h
  linarith

lemma d1_decomp (S K r : ℝ) {T σ : ℝ} (hT : 0 < T) (hσ : σ ≠ 0) :
    d1 S K T r σ = (Real.log (S / K) + r * T) / (σ * Real.sqrt T) +
      σ * Real.sqrt T / 2 := by
  have hstpos : 0 < Real.sqrt T := Real.sqrt_pos.2 hT
  have hmne : σ * Real.sqrt T ≠ 0 := mul_ne_zero hσ (ne_of_gt hstpos)
  have hTT : Real.sqrt T * Real.sqrt T = T := Real.mul_self_sqrt hT.le
  unfold d1
  field_simp
  linear_combination (-(σ ^ 3 * Real.sqrt T)) * hTT

lemma d2_decomp (S K r : ℝ) {T σ : ℝ} (hT : 0 < T) (hσ : σ ≠ 0) :
    d2 S K T r σ = (Real.log (S / K) + r * T) / (σ * Real.sqrt T) -
      σ * Real.sqrt T / 2 := by
  rw [d2, d1_decomp S K r hT hσ]
  ring

lemma tendsto_mul_sqrt_nhdsWithin {T : ℝ} (hT : 0 < T) :
    Tendsto (fun σ : ℝ => σ * Real.sqrt T) (𝓝[>] 0) (𝓝[>] 0) := by
  have hstpos : 0 < Real.sqrt T := Real.sqrt_pos.2 hT
  rw [tendsto_nhdsWithin_iff]
  constructor
  · have hcont : Tendsto (fun σ : ℝ => σ * Real.sqrt T) (𝓝 0)
        (𝓝 (0 * Real.sqrt T)) :=
      (continuous_id.mul continuous_const).tendsto 0
    rw [zero_mul] at hcont
    exact hcont.mono_left nhdsWithin_le_nhds
  · exact eventually_mem_nhdsWithin.mono fun σ hσ => mul_pos hσ hstpos

lemma sigma_zero_call_limit (S K T r : ℝ) (hS : 0 < S) (hK : 0 < K)
    (hT : 0 < T) :
    Tendsto (fun sigma => black_scholes_call S K T r sigma) (𝓝[>] (0:ℝ))
      (𝓝 (max (S - K * Real.exp (-r * T)) 0)) := by
  have hstpos : 0 < Real.sqrt T := Real.sqrt_pos.2 hT
  have hKd : 0 < K * Real.exp (-r * T) := mul_pos hK (Real.exp_pos _)
  have hSKd : 0 < S / (K * Real.exp (-r * T)) := div_pos hS hKd
  have hlogKd : Real.log (S / (K * Real.exp (-r * T))) =
      Real.log (S / K) + r * T := by
    rw [Real.log_div (ne_of_gt hS) (ne_of_gt hKd),
      Real.log_mul (ne_of_gt hK) (ne_of_gt (Real.exp_pos _)),
      Real.log_exp, Real.log_div (ne_of_gt hS) (ne_of_gt hK)]
    ring
  have hu := tendsto_mul_sqrt_nhdsWithin hT
  have hu0 : Tendsto (fun σ : ℝ => σ * Real.sqrt T) (𝓝[>] 0) (𝓝 0) :=
    hu.mono_right nhdsWithin_le_nhds
  have hne : ∀ᶠ σ : ℝ in 𝓝[>] 0, σ ≠ 0 :=
    eventually_mem_nhdsWithin.mono fun σ hσ => ne_of_gt hσ
  have hupos : ∀ᶠ σ : ℝ in 𝓝[>] 0, 0 < σ * Real.sqrt T :=
    eventually_mem_nhdsWithin.mono fun σ hσ => mul_pos hσ hstpos
  have husmall : ∀ᶠ σ : ℝ in 𝓝[>] 0, σ * Real.sqrt T < 2 :=
    hu0.eventually_lt_const (by norm_num)
  have hfun : (fun sigma => black_scholes_call S K T r sigma) =
      fun sigma => S * normCdf (d1 S K T r sigma) -
        K * Real.exp (-r * T) * normCdf (d2 S K T r sigma) := rfl
  rcases lt_trichotomy (Real.log (S / K) + r * T) 0 with hneg | hzero | hpos
  · -- `log (S/K) + r T < 0`: the call price tends to `0 = max (S - Kd) 0`.
    have hmax : max (S - K * Real.exp (-r * T)) 0 = 0 := by
      have h1 : Real.log (S / (K * Real.exp (-r * T))) < 0 := by
        rw [hlogKd]; exact hneg
      have h2 : S / (K * Real.exp (-r * T)) < 1 :=
        (Real.log_neg_iff hSKd).1 h1
      have h3 : S < K * Real.exp (-r * T) := (div_lt_one hKd).1 h2
      exact max_eq_right (by linarith)
    have hinvB : Tendsto
        (fun σ : ℝ => (Real.log (S / K) + r * T) / (σ * Real.sqrt T))
        (𝓝[>] 0) atBot := by
      have h2 : Tendsto (fun σ : ℝ => (σ * Real.sqrt T)⁻¹) (𝓝[>] 0) atTop :=
        tendsto_inv_zero_atTop.comp hu
      have h3 := (tendsto_const_mul_atBot_of_neg hneg).2 h2
      simpa [div_eq_mul_inv] using h3
    have hd1B : Tendsto (fun σ => d1 S K T r σ) (𝓝[>] 0) atBot := by
      apply tendsto_atBot_mono' (𝓝[>] (0:ℝ)) ?_
        (tendsto_atBot_add_const_right _ 1 hinvB)
      filter_upwards [hne, husmall, hupos] with σ h1 h2 h3
      rw [d1_decomp S K r hT h1]
      have : σ * Real.sqrt T / 2 ≤ 1 := by linarith
      linarith
    have hd2B : Tendsto (fun σ => d2 S K T r σ) (𝓝[>] 0) atBot := by
      apply tendsto_atBot_mono' (𝓝[>] (0:ℝ)) ?_ hinvB
      filter_upwards [hne, hupos] with σ h1 h3
      rw [d2_decomp S K r hT h1]
      linarith
    rw [hfun, hmax]
    have hc : Tendsto (fun sigma => S * normCdf (d1 S K T r sigma) -
        K * Real.exp (-r * T) * normCdf (d2 S K T r sigma)) (𝓝[>] (0:ℝ))
        (𝓝 (S * 0 - K * Real.exp (-r * T) * 0)) :=
      ((tendsto_normCdf_atBot.comp hd1B).const_mul S).sub
        ((tendsto_normCdf_atBot.comp hd2B).const_mul _)
    simpa using hc
  · -- `log (S/K) + r T = 0`: `S = Kd`, the call price tends to `0`.
    have hSeq : S = K * Real.exp (-r * T) := by
      have h1 : Real.log (S / (K * Real.exp (-r * T))) = 0 := by
        rw [hlogKd]; exact hzero
      rcases Real.log_eq_zero.1 h1 with h | h | h
      · exact absurd h (ne_of_gt hSKd)
      · exact (div_eq_one_iff_eq (ne_of_gt hKd)).1 h
      · linarith [hSKd]
    have hmax : max (S - K * Real.exp (-r * T)) 0 = 0 := by
      rw [← hSeq]; simp
    have hd1C : Tendsto (fun σ => d1 S K T r σ) (𝓝[>] 0) (𝓝 0) := by
      have hhalf : Tendsto (fun σ : ℝ => σ * Real.sqrt T / 2) (𝓝[>] 0)
          (𝓝 (0 / 2)) := hu0.div_const 2
      rw [zero_div] at hhalf
      apply hhalf.congr'
      filter_upwards [hne] with σ h1
      rw [d1_decomp S K r hT h1, hzero]
      simp
    have hd2C : Tendsto (fun σ => d2 S K T r σ) (𝓝[>] 0) (𝓝 0) := by
      have hhalf : Tendsto (fun σ : ℝ => -(σ * Real.sqrt T / 2)) (𝓝[>] 0)
          (𝓝 (-(0 / 2))) := (hu0.div_const 2).neg
      rw [zero_div, neg_zero] at hhalf
      apply hhalf.congr'
      filter_upwards [hne] with σ h1
      rw [d2_decomp S K r hT h1, hzero]
      simp
    rw [hfun, hmax]
    have hc : Tendsto (fun sigma => S * normCdf (d1 S K T r sigma) -
        K * Real.exp (-r * T) * normCdf (d2 S K T r sigma)) (𝓝[>] (0:ℝ))
        (𝓝 (S * normCdf 0 - K * Real.exp (-r * T) * normCdf 0)) :=
      (((continuous_normCdf.tendsto 0).comp hd1C).const_mul S).sub
        (((continuous_normCdf.tendsto 0).comp hd2C).const_mul _)
    have hval : S * normCdf 0 - K * Real.exp (-r * T) * normCdf 0 = 0 := by
      rw [normCdf_zero, hSeq]; ring
    rw [hval] at hc
    exact hc
  · -- `log (S/K) + r T > 0`: the call price tends to `S - Kd > 0`.
    have hmax : max (S - K * Real.exp (-r * T)) 0 = S - K * Real.exp (-r * T) := by
      have h1 : 0 < Real.log (S / (K * Real.exp (-r * T))) := by
        rw [hlogKd]; exact hpos
      have h2 : 1 < S / (K * Real.exp (-r * T)) :=
        (Real.log_pos_iff hSKd).1 h1
      have h3 : K * Real.exp (-r * T) < S := (one_lt_div hKd).1 h2
      exact max_eq_left (by linarith)
    have hinvT : Tendsto
        (fun σ : ℝ => (Real.log (S / K) + r * T) / (σ * Real.sqrt T))
        (𝓝[>] 0) atTop := by
      have h2 : Tendsto (fun σ : ℝ => (σ * Real.sqrt T)⁻¹) (𝓝[>] 0) atTop :=
        tendsto_inv_zero_atTop.comp hu
      have h3 := Tendsto.const_mul_atTop hpos h2
      simpa [div_eq_mul_inv] using h3
    have hd1T : Tendsto (fun σ => d1 S K T r σ) (𝓝[>] 0) atTop := by
      apply tendsto_atTop_mono' (𝓝[>] (0:ℝ)) ?_ hinvT
      filter_upwards [hne, hupos] with σ h1 h3
      rw [d1_decomp S K r hT h1]
      linarith
    have hd2T : Tendsto (fun σ => d2 S K T r σ) (𝓝[>] 0) atTop := by
      apply tendsto_atTop_mono' (𝓝[>] (0:ℝ)) ?_
        (tendsto_atTop_add_const_right _ (-1) hinvT)
      filter_upwards [hne, husmall, hupos] with σ h1 h2 h3
      rw [d2_decomp S K r hT h1]
      have : σ * Real.sqrt T / 2 ≤ 1 := by linarith
      linarith
    rw [hfun, hmax]
    have hc : Tendsto (fun sigma => S * normCdf (d1 S K T r sigma) -
        K * Real.exp (-r * T) * normCdf (d2 S K T r sigma)) (𝓝[>] (0:ℝ))
        (𝓝 (S * 1 - K * Real.exp (-r * T) * 1)) :=
      ((tendsto_normCdf_atTop.comp hd1T).const_mul S).sub
        ((tendsto_normCdf_atTop.comp hd2T).const_mul _)
    simpa using hc

/-! ### Numeric bounds for the reference evaluation -/

lemma normCdf_repr (a : ℝ) :
    normCdf a = 1 / 2 +
      (∫ t in (0:ℝ)..a, Real.exp (-(t ^ 2) / 2)) / Real.sqrt (2 * Real.pi) := by
  rw [normCdf_eq_add_intervalIntegral a, normCdf_zero]
  congr 1
  simp only [normPdf]
  exact intervalIntegral.integral_div _ _

lemma exp_quad_bound {t : ℝ} (h0 : 0 ≤ t) (h1 : t ≤ 1) :
    |Real.exp (-(t ^ 2) / 2) - (1 - t ^ 2 / 2 + t ^ 4 / 8)| ≤ t ^ 6 / 36 := by
  have hx : |(-(t ^ 2) / 2 : ℝ)| ≤ 1 := by
    rw [abs_le]
    constructor <;> nlinarith
  have h := Real.exp_bound hx (show 0 < 3 by norm_num)
  have hsum : ∑ m ∈ Finset.range 3, (-(t ^ 2) / 2 : ℝ) ^ m / m.factorial =
      1 - t ^ 2 / 2 + t ^ 4 / 8 := by
    simp [Finset.sum_range_succ, Nat.factorial]
    ring
  have habs : |(-(t ^ 2) / 2 : ℝ)| = t ^ 2 / 2 := by
    rw [abs_of_nonpos (by nlinarith [sq_nonneg t] : (-(t ^ 2) / 2 : ℝ) ≤ 0)]
    ring
  rw [hsum, habs] at h
  have hrhs : ((t ^ 2 / 2) ^ 3 : ℝ) *
      ((3:ℕ).succ / (((3:ℕ).factorial : ℝ) * (3:ℕ))) = t ^ 6 / 36 := by
    norm_num [Nat.factorial]
    ring
  rw [hrhs] at h
  exact h

lemma quad_primitive_lower (t : ℝ) :
    HasDerivAt (fun y : ℝ => y - y ^ 3 / 6 + y ^ 5 / 40 - y ^ 7 / 252)
      (1 - t ^ 2 / 2 + t ^ 4 / 8 - t ^ 6 / 36) t := by
  have h := (((hasDerivAt_id t).sub ((hasDerivAt_pow 3 t).div_const 6)).add
    ((hasDerivAt_pow 5 t).div_const 40)).sub ((hasDerivAt_pow 7 t).div_const 252)
  convert h using 1
  push_cast
  ring

lemma quad_primitive_upper (t : ℝ) :
    HasDerivAt (fun y : ℝ => y - y ^ 3 / 6 + y ^ 5 / 40 + y ^ 7 / 252)
      (1 - t ^ 2 / 2 + t ^ 4 / 8 + t ^ 6 / 36) t := by
  have h := (((hasDerivAt_id t).sub ((hasDerivAt_pow 3 t).div_const 6)).add
    ((hasDerivAt_pow 5 t).div_const 40)).add ((hasDerivAt_pow 7 t).div_const 252)
  convert h using 1
  push_cast
  ring

lemma continuous_gauss_exp : Continuous fun t : ℝ => Real.exp (-(t ^ 2) / 2) :=
  Real.continuous_exp.comp ((continuous_pow 2).neg.div_const 2)

lemma gauss_integral_bounds {a : ℝ} (h0 : 0 ≤ a) (h1 : a ≤ 1) :
    a - a ^ 3 / 6 + a ^ 5 / 40 - a ^ 7 / 252 ≤
      (∫ t in (0:ℝ)..a, Real.exp (-(t ^ 2) / 2)) ∧
    (∫ t in (0:ℝ)..a, Real.exp (-(t ^ 2) / 2)) ≤
      a - a ^ 3 / 6 + a ^ 5 / 40 + a ^ 7 / 252 := by
  have hcl : Continuous fun t : ℝ => 1 - t ^ 2 / 2 + t ^ 4 / 8 - t ^ 6 / 36 :=
    ((continuous_const.sub ((continuous_pow 2).div_const 2)).add
      ((continuous_pow 4).div_const 8)).sub ((continuous_pow 6).div_const 36)
  have hcu : Continuous fun t : ℝ => 1 - t ^ 2 / 2 + t ^ 4 / 8 + t ^ 6 / 36 :=
    ((continuous_const.sub ((continuous_pow 2).div_const 2)).add
      ((continuous_pow 4).div_const 8)).add ((continuous_pow 6).div_const 36)
  have hlow : ∫ t in (0:ℝ)..a, (1 - t ^ 2 / 2 + t ^ 4 / 8 - t ^ 6 / 36) =
      a - a ^ 3 / 6 + a ^ 5 / 40 - a ^ 7 / 252 := by
    rw [intervalIntegral.integral_eq_sub_of_hasDerivAt
      (fun t _ => quad_primitive_lower t) (hcl.intervalIntegrable 0 a)]
    norm_num
  have hup : ∫ t in (0:ℝ)..a, (1 - t ^ 2 / 2 + t ^ 4 / 8 + t ^ 6 / 36) =
      a - a ^ 3 / 6 + a ^ 5 / 40 + a ^ 7 / 252 := by
    rw [intervalIntegral.integral_eq_sub_of_hasDerivAt
      (fun t _ => quad_primitive_upper t) (hcu.intervalIntegrable 0 a)]
    norm_num
  constructor
  · rw [← hlow]
    apply intervalIntegral.integral_mono_on h0 (hcl.intervalIntegrable 0 a)
      (continuous_gauss_exp.intervalIntegrable 0 a)
    intro t ht
    have hb := abs_le.1 (exp_quad_bound ht.1 (le_trans ht.2 h1))
    linarith [hb.1]
  · rw [← hup]
    apply intervalIntegral.integral_mono_on h0
      (continuous_gauss_exp.intervalIntegrable 0 a)
      (hcu.intervalIntegrable 0 a)
    intro t ht
    have hb := abs_le.1 (exp_quad_bound ht.1 (le_trans ht.2 h1))
    linarith [hb.2]

lemma sqrt_two_pi_bounds :
    2.50662 < Real.sqrt (2 * Real.pi) ∧ Real.sqrt (2 * Real.pi) < 2.50663 := by
  have hpi_lb := Real.pi_gt_d6
  have hpi_ub := Real.pi_lt_d6
  constructor
  · rw [show (2.50662:ℝ) = Real.sqrt (2.50662 ^ 2) by
      rw [Real.sqrt_sq (by norm_num)]]
    apply Real.sqrt_lt_sqrt (by norm_num)
    nlinarith
  · rw [show (2.50663:ℝ) = Real.sqrt (2.50663 ^ 2) by
      rw [Real.sqrt_sq (by norm_num)]]
    apply Real.sqrt_lt_sqrt (by positivity)
    nlinarith

lemma exp_neg_twentieth_bounds :
    0.9512288 < Real.exp (-(1 / 20)) ∧ Real.exp (-(1 / 20)) < 0.9512295 := by
  have hx : |(-(1 / 20) : ℝ)| ≤ 1 := by rw [abs_le]; norm_num
  have h := Real.exp_bound hx (show 0 < 4 by norm_num)
  have hsum : ∑ m ∈ Finset.range 4, (-(1 / 20) : ℝ) ^ m / m.factorial =
      1 - 1 / 20 + 1 / 800 - 1 / 48000 := by
    simp [Finset.sum_range_succ, Nat.factorial]
    norm_num
  have habs : |(-(1 / 20) : ℝ)| = 1 / 20 := by
    rw [abs_of_nonpos (by norm_num : (-(1 / 20) : ℝ) ≤ 0)]
    norm_num
  rw [hsum, habs] at h
  have hrhs : ((1 / 20 : ℝ)) ^ 4 *
      ((4:ℕ).succ / (((4:ℕ).factorial : ℝ) * (4:ℕ))) = 1 / 3072000 := by
    norm_num [Nat.factorial]
  rw [hrhs] at h
  have hb := abs_le.1 h
  constructor <;> [linarith [hb.1]; linarith [hb.2]]

lemma normCdf_35_bounds :
    0.636829 < normCdf (7 / 20) ∧ normCdf (7 / 20) < 0.636835 := by
  have hI := gauss_integral_bounds (show (0:ℝ) ≤ 7 / 20 by norm_num)
    (by norm_num)
  have hs := sqrt_two_pi_bounds
  have hs_pos : (0:ℝ) < Real.sqrt (2 * Real.pi) :=
    lt_trans (by norm_num) hs.1
  rw [normCdf_repr]
  constructor
  · have hl : (0.136829:ℝ) * Real.sqrt (2 * Real.pi) <
        ∫ t in (0:ℝ)..(7 / 20 : ℝ), Real.exp (-(t ^ 2) / 2) := by
      nlinarith [hI.1, hs.2]
    have h2 := (lt_div_iff₀ hs_pos).2 hl
    linarith
  · have hu : (∫ t in (0:ℝ)..(7 / 20 : ℝ), Real.exp (-(t ^ 2) / 2)) <
        (0.136835:ℝ) * Real.sqrt (2 * Real.pi) := by
      nlinarith [hI.2, hs.1]
    have h2 := (div_lt_iff₀ hs_pos).2 hu
    linarith

lemma normCdf_15_bounds :
    0.559616 < normCdf (3 / 20) ∧ normCdf (3 / 20) < 0.559619 := by
  have hI := gauss_integral_bounds (show (0:ℝ) ≤ 3 / 20 by norm_num)
    (by norm_num)
  have hs := sqrt_two_pi_bounds
  have hs_pos : (0:ℝ) < Real.sqrt (2 * Real.pi) :=
    lt_trans (by norm_num) hs.1
  rw [normCdf_repr]
  constructor
  · have hl : (0.059616:ℝ) * Real.sqrt (2 * Real.pi) <
        ∫ t in (0:ℝ)..(3 / 20 : ℝ), Real.exp (-(t ^ 2) / 2) := by
      nlinarith [hI.1, hs.2]
    have h2 := (lt_div_iff₀ hs_pos).2 hl
    linarith
  · have hu : (∫ t in (0:ℝ)..(3 / 20 : ℝ), Real.exp (-(t ^ 2) / 2)) <
        (0.059619:ℝ) * Real.sqrt (2 * Real.pi) := by
      nlinarith [hI.2, hs.1]
    have h2 := (div_lt_iff₀ hs_pos).2 hu
    linarith

lemma d1_ref : d1 100 100 1 0.05 0.2 = 7 / 20 := by
  unfold d1
  rw [show (100:ℝ) / 100 = 1 by norm_num, Real.log_one, Real.sqrt_one]
  norm_num

lemma d2_ref : d2 100 100 1 0.05 0.2 = 3 / 20 := by
  rw [d2, d1_ref, Real.sqrt_one]
  norm_num

/-! ### Claim theorems -/

/-- C1: for all `S>0, K>0, T>0, r, sigma>0` the call and put prices satisfy
put-call parity `call - put = S - K·exp(-r·T)`. -/
theorem put_call_parity (S K T r sigma : ℝ) (hS : 0 < S) (hK : 0 < K)
    (hT : 0 < T) (hsigma : 0 < sigma) :
    black_scholes_call S K T r sigma - black_scholes_put S K T r sigma =
      S - K * Real.exp (-r * T) :=
  bs_parity S K T r sigma

/-- Witness for C1 at `S = K = T = sigma = 1`, `r = 0`. -/
theorem put_call_parity_witness :
    black_scholes_call 1 1 1 0 1 - black_scholes_put 1 1 1 0 1 =
      1 - 1 * Real.exp (-0 * 1) :=
  put_call_parity 1 1 1 0 1 (by norm_num) (by norm_num) (by norm_num)
    (by norm_num)

/-- C2: for all `S>0, K>0, T>0, r, sigma>0`, `option_greeks` returns a
Delta strictly between 0 and 1 for option `"call"`, a Delta strictly
between -1 and 0 for the put option type, and a strictly positive Gamma
for both option types. -/
theorem greeks_sanity (S K T r sigma : ℝ) (hS : 0 < S) (hK : 0 < K)
    (hT : 0 < T) (hsigma : 0 < sigma) :
    (0 < (option_greeks S K T r sigma "call").Delta ∧
      (option_greeks S K T r sigma "call").Delta < 1) ∧
    (-1 < (option_greeks S K T r sigma "put").Delta ∧
      (option_greeks S K T r sigma "put").Delta < 0) ∧
    0 < (option_greeks S K T r sigma "call").Gamma ∧
    0 < (option_greeks S K T r sigma "put").Gamma := by
  have hp := normCdf_pos (d1 S K T r sigma)
  have hl := normCdf_lt_one (d1 S K T r sigma)
  have hg : 0 < normPdf (d1 S K T r sigma) / (S * sigma * Real.sqrt T) :=
    div_pos (normPdf_pos _)
      (by positivity)
  simp only [option_greeks, if_pos rfl,
    if_neg (show ¬("put" : String) = "call" by decide)]
  exact ⟨⟨hp, hl⟩, ⟨by linarith, by linarith⟩, hg, hg⟩

/-- Witness for C2 at `S = K = T = sigma = 1`, `r = 0`. -/
theorem greeks_sanity_witness :
    (0 < (option_greeks 1 1 1 0 1 "call").Delta ∧
      (option_greeks 1 1 1 0 1 "call").Delta < 1) ∧
    (-1 < (option_greeks 1 1 1 0 1 "put").Delta ∧
      (option_greeks 1 1 1 0 1 "put").Delta < 0) ∧
    0 < (option_greeks 1 1 1 0 1 "call").Gamma ∧
    0 < (option_greeks 1 1 1 0 1 "put").Gamma :=
  greeks_sanity 1 1 1 0 1 (by norm_num) (by norm_num) (by norm_num)
    (by norm_num)

/-- C3: for every option argument that is not exactly the lowercase
string `"call"`, `option_greeks` computes the put-branch Delta, Theta and
Rho and the heatmap cell price is `black_scholes_put`; both strings the
dashboard radio selector actually passes (`"Call"` and `"Put"`) are such
arguments, so the app shows put-sign Greeks and a put heatmap even when
the user selects "Call". -/
theorem non_call_strings_take_put_branch :
    (∀ o : String, o ≠ "call" →
      ∀ S K T r sigma : ℝ,
        (option_greeks S K T r sigma o).Delta =
          normCdf (d1 S K T r sigma) - 1 ∧
        (option_greeks S K T r sigma o).Theta =
          -(S * normPdf (d1 S K T r sigma) * sigma) / (2 * Real.sqrt T) +
            r * K * Real.exp (-r * T) * normCdf (-d2 S K T r sigma) ∧
        (option_greeks S K T r sigma o).Rho =
          -K * T * Real.exp (-r * T) * normCdf (-d2 S K T r sigma) ∧
        heatPrice K T r o S sigma = black_scholes_put S K T r sigma) ∧
    ∀ o ∈ radioOptions, o ≠ "call" := by
  constructor
  · intro o ho S K T r sigma
    simp [option_greeks, heatPrice, ho]
  · intro o ho
    have hcases : o = "Call" ∨ o = "Put" := by
      simpa [radioOptions] using ho
    rcases hcases with h | h <;> subst h <;> decide

/-- Witness for C3 at the radio value `"Call"`. -/
theorem non_call_strings_take_put_branch_witness :
    (option_greeks 1 1 1 0 1 "Call").Delta = normCdf (d1 1 1 1 0 1) - 1 :=
  (non_call_strings_take_put_branch.1 "Call" (by decide) 1 1 1 0 1).1

/-- C6: when `T = 0` or `sigma = 0` the divisor `sigma * sqrt T` of the
`d1` computation is zero (and so is the Gamma divisor
`S * sigma * sqrt T`), while `d1`, `black_scholes_call` and
`option_greeks` still apply the raw formula with no guarding code path. -/
theorem degenerate_inputs_unguarded (S K T r sigma : ℝ)
    (h : T = 0 ∨ sigma = 0) :
    sigma * Real.sqrt T = 0 ∧
    S * sigma * Real.sqrt T = 0 ∧
    d1 S K T r sigma =
      (Real.log (S / K) + (r + 0.5 * sigma ^ 2) * T) /
        (sigma * Real.sqrt T) ∧
    black_scholes_call S K T r sigma =
      S * normCdf (d1 S K T r sigma) -
        K * Real.exp (-r * T) * normCdf (d2 S K T r sigma) ∧
    (option_greeks S K T r sigma "call").Gamma =
      normPdf (d1 S K T r sigma) / (S * sigma * Real.sqrt T) := by
  have hz : sigma * Real.sqrt T = 0 := by
    rcases h with h | h <;> simp [h]
  exact ⟨hz, by rw [mul_assoc, hz, mul_zero], rfl, rfl, by simp [option_greeks]⟩

/-- Witness for C6 at `T = 0`. -/
theorem degenerate_inputs_unguarded_witness :
    (1 : ℝ) * 0.2 * Real.sqrt 0 = 0 :=
  (degenerate_inputs_unguarded 1 1 0 0 0.2 (Or.inl rfl)).2.1

/-- C10: the Gamma and Vega returned by `option_greeks` do not depend on
the option string: any two option arguments give the same Gamma and the
same Vega. -/
theorem gamma_vega_independent_of_option (S K T r sigma : ℝ)
    (o1 o2 : String) (hS : 0 < S) (hK : 0 < K) (hT : 0 < T)
    (hsigma : 0 < sigma) :
    (option_greeks S K T r sigma o1).Gamma =
      (option_greeks S K T r sigma o2).Gamma ∧
    (option_greeks S K T r sigma o1).Vega =
      (option_greeks S K T r sigma o2).Vega := by
  by_cases h1 : o1 = "call" <;> by_cases h2 : o2 = "call" <;>
    simp [option_greeks, h1, h2]

/-- Witness for C10 at `S = K = T = sigma = 1`, `r = 0`,
options `"Call"` and `"put"`. -/
theorem gamma_vega_independent_of_option_witness :
    (option_greeks 1 1 1 0 1 "Call").Gamma =
      (option_greeks 1 1 1 0 1 "put").Gamma ∧
    (option_greeks 1 1 1 0 1 "Call").Vega =
      (option_greeks 1 1 1 0 1 "put").Vega :=
  gamma_vega_independent_of_option 1 1 1 0 1 "Call" "put" (by norm_num)
    (by norm_num) (by norm_num) (by norm_num)

/-- C7: the heatmap matrix entry `(i, j)` equals the option price at spot
`S_i` and volatility `sigma_j` minus the purchase price, where the `S_i`
are 8 linearly spaced values from 50 to 150 and the `sigma_j` are 8
linearly spaced values from 0.1 to 0.6, and the nested loop writes every
matrix cell exactly once. -/
theorem pnl_heatmap_grid (K T r purchase_price : ℝ) (o : String) :
    (∀ i j : Fin 8, plot_pnl_heatmap K T r purchase_price o i j =
        heatPrice K T r o (linspace 50 150 8 i) (linspace 0.1 0.6 8 j) -
          purchase_price) ∧
    (∀ i : Fin 8, linspace 50 150 8 i = 50 + ((i : ℕ) : ℝ) * (150 - 50) / 7) ∧
    (∀ j : Fin 8, linspace 0.1 0.6 8 j = 0.1 + ((j : ℕ) : ℝ) * (0.6 - 0.1) / 7) ∧
    (∀ p : Fin 8 × Fin 8, heatIndices.count p = 1) := by
  refine ⟨fun i j => ?_, fun i => by norm_num [linspace],
    fun j => by norm_num [linspace], by decide⟩
  have hmem : (i, j) ∈ heatIndices := by
    simp only [heatIndices, List.mem_flatMap, List.mem_map]
    exact ⟨i, List.mem_finRange i, j, List.mem_finRange j, rfl⟩
  exact foldl_writeStep_mem _ _ _ (i, j) hmem

/-- C9: `plot_greek_curve` evaluates `option_greeks` at exactly 100
linearly spaced spot prices from 50 to 150, and for each of the five
selectable Greek names it collects exactly one value (the corresponding
field of `option_greeks`) per spot price, a 100-point curve. -/
theorem greek_curve_points (K T r sigma : ℝ) (o : String) :
    (∀ greek ∈ ["Delta", "Gamma", "Vega", "Theta", "Rho"],
      (plot_greek_curve K T r sigma greek o).length = 100) ∧
    plot_greek_curve K T r sigma "Delta" o = (List.range 100).map
      (fun k => (option_greeks (linspace 50 150 100 k) K T r sigma o).Delta) ∧
    plot_greek_curve K T r sigma "Gamma" o = (List.range 100).map
      (fun k => (option_greeks (linspace 50 150 100 k) K T r sigma o).Gamma) ∧
    plot_greek_curve K T r sigma "Vega" o = (List.range 100).map
      (fun k => (option_greeks (linspace 50 150 100 k) K T r sigma o).Vega) ∧
    plot_greek_curve K T r sigma "Theta" o = (List.range 100).map
      (fun k => (option_greeks (linspace 50 150 100 k) K T r sigma o).Theta) ∧
    plot_greek_curve K T r sigma "Rho" o = (List.range 100).map
      (fun k => (option_greeks (linspace 50 150 100 k) K T r sigma o).Rho) ∧
    (∀ k : ℕ, linspace 50 150 100 k = 50 + (k : ℝ) * (150 - 50) / 99) := by
  have hD : plot_greek_curve K T r sigma "Delta" o = (List.range 100).map
      (fun k => (option_greeks (linspace 50 150 100 k) K T r sigma o).Delta) := by
    unfold plot_greek_curve
    rw [show greekStep K T r sigma "Delta" o = fun vs S =>
        vs ++ [(option_greeks S K T r sigma o).Delta] from by
      funext vs S; simp [greekStep]]
    rw [foldl_append_map]
    simp [List.map_map, Function.comp]
  have hG : plot_greek_curve K T r sigma "Gamma" o = (List.range 100).map
      (fun k => (option_greeks (linspace 50 150 100 k) K T r sigma o).Gamma) := by
    unfold plot_greek_curve
    rw [show greekStep K T r sigma "Gamma" o = fun vs S =>
        vs ++ [(option_greeks S K T r sigma o).Gamma] from by
      funext vs S; simp [greekStep]]
    rw [foldl_append_map]
    simp [List.map_map, Function.comp]
  have hV : plot_greek_curve K T r sigma "Vega" o = (List.range 100).map
      (fun k => (option_greeks (linspace 50 150 100 k) K T r sigma o).Vega) := by
    unfold plot_greek_curve
    rw [show greekStep K T r sigma "Vega" o = fun vs S =>
        vs ++ [(option_greeks S K T r sigma o).Vega] from by
      funext vs S; simp [greekStep]]
    rw [foldl_append_map]
    simp [List.map_map, Function.comp]
  have hT : plot_greek_curve K T r sigma "Theta" o = (List.range 100).map
      (fun k => (option_greeks (linspace 50 150 100 k) K T r sigma o).Theta) := by
    unfold plot_greek_curve
    rw [show greekStep K T r sigma "Theta" o = fun vs S =>
        vs ++ [(option_greeks S K T r sigma o).Theta] from by
      funext vs S; simp [greekStep]]
    rw [foldl_append_map]
    simp [List.map_map, Function.comp]
  have hR : plot_greek_curve K T r sigma "Rho" o = (List.range 100).map
      (fun k => (option_greeks (linspace 50 150 100 k) K T r sigma o).Rho) := by
    unfold plot_greek_curve
    rw [show greekStep K T r sigma "Rho" o = fun vs S =>
        vs ++ [(option_greeks S K T r sigma o).Rho] from by
      funext vs S; simp [greekStep]]
    rw [foldl_append_map]
    simp [List.map_map, Function.comp]
  refine ⟨?_, hD, hG, hV, hT, hR, fun k => by norm_num [linspace]⟩
  intro greek hg
  have hcases : greek = "Delta" ∨ greek = "Gamma" ∨ greek = "Vega" ∨
      greek = "Theta" ∨ greek = "Rho" := by simpa using hg
  rcases hcases with h | h | h | h | h <;> subst h <;>
    simp [hD, hG, hV, hT, hR]

/-- Witness for C9: the Delta curve for `K = T = sigma = 1`, `r = 0`,
option `"call"` has 100 points. -/
theorem greek_curve_points_witness :
    (plot_greek_curve 1 1 0 1 "Delta" "call").length = 100 :=
  (greek_curve_points 1 1 0 1 "call").1 "Delta" (by simp)

/-- C4: for `K>0, T>0, r, sigma>0` and spots `0 < S1 ≤ S2`, the call
price is non-decreasing and the put price non-increasing in the spot. -/
theorem call_up_put_down_in_spot (K T r sigma S1 S2 : ℝ) (hK : 0 < K)
    (hT : 0 < T) (hsigma : 0 < sigma) (hS1 : 0 < S1) (h12 : S1 ≤ S2) :
    black_scholes_call S1 K T r sigma ≤ black_scholes_call S2 K T r sigma ∧
    black_scholes_put S2 K T r sigma ≤ black_scholes_put S1 K T r sigma := by
  have hS2 : 0 < S2 := lt_of_lt_of_le hS1 h12
  exact ⟨call_monotoneOn K T r sigma hK hT hsigma (mem_Ioi.2 hS1)
      (mem_Ioi.2 hS2) h12,
    put_antitoneOn K T r sigma hK hT hsigma (mem_Ioi.2 hS1)
      (mem_Ioi.2 hS2) h12⟩

/-- Witness for C4 at `K = T = sigma = 1`, `r = 0`, `S1 = 1`, `S2 = 2`. -/
theorem call_up_put_down_in_spot_witness :
    black_scholes_call 1 1 1 0 1 ≤ black_scholes_call 2 1 1 0 1 ∧
    black_scholes_put 2 1 1 0 1 ≤ black_scholes_put 1 1 1 0 1 :=
  call_up_put_down_in_spot 1 1 0 1 1 2 (by norm_num) (by norm_num)
    (by norm_num) (by norm_num) (by norm_num)

/-- C5: at `S = K = 100`, `T = 1`, `r = 0.05`, `sigma = 0.2`, the call
price rounds to `10.45` and the put price to `5.57` at two decimal
places. -/
theorem reference_values :
    |black_scholes_call 100 100 1 0.05 0.2 - 10.45| < 0.005 ∧
    |black_scholes_put 100 100 1 0.05 0.2 - 5.57| < 0.005 := by
  have hE := exp_neg_twentieth_bounds
  have h1 := normCdf_35_bounds
  have h2 := normCdf_15_bounds
  have hexp_arg : (-(0.05:ℝ) * 1) = -(1 / 20) := by norm_num
  have hcall : black_scholes_call 100 100 1 0.05 0.2 =
      100 * normCdf (7 / 20) - 100 * Real.exp (-(1 / 20)) * normCdf (3 / 20) := by
    unfold black_scholes_call
    rw [d1_ref, d2_ref, hexp_arg]
  have hput : black_scholes_put 100 100 1 0.05 0.2 =
      black_scholes_call 100 100 1 0.05 0.2 - 100 +
        100 * Real.exp (-(1 / 20)) := by
    have hp := bs_parity 100 100 1 0.05 0.2
    rw [hexp_arg] at hp
    linarith
  have hE_pos : (0:ℝ) < Real.exp (-(1 / 20)) := Real.exp_pos _
  have hprod_ub : Real.exp (-(1 / 20)) * normCdf (3 / 20) <
      0.9512295 * 0.559619 :=
    mul_lt_mul'' hE.2 h2.2 hE_pos.le (normCdf_pos _).le
  have hprod_lb : (0.9512288:ℝ) * 0.559616 <
      Real.exp (-(1 / 20)) * normCdf (3 / 20) :=
    mul_lt_mul'' hE.1 h2.1 (by norm_num) (by norm_num)
  constructor
  · rw [hcall, abs_lt]
    constructor <;> nlinarith [h1.1, h1.2, hprod_lb, hprod_ub]
  · rw [hput, hcall, abs_lt]
    constructor <;> nlinarith [h1.1, h1.2, hprod_lb, hprod_ub, hE.1, hE.2]

/-- C8: for `S>0, K>0, T>0, r`, as `sigma` approaches `0` from above the
call price converges to `max (S - K·exp(-r·T)) 0`. -/
theorem call_sigma_to_zero_boundary (S K T r : ℝ) (hS : 0 < S)
    (hK : 0 < K) (hT : 0 < T) :
    Tendsto (fun sigma => black_scholes_call S K T r sigma) (𝓝[>] (0:ℝ))
      (𝓝 (max (S - K * Real.exp (-r * T)) 0)) :=
  sigma_zero_call_limit S K T r hS hK hT

/-- Witness for C8 at `S = 2`, `K = T = 1`, `r = 0`. -/
theorem call_sigma_to_zero_boundary_witness :
    Tendsto (fun sigma => black_scholes_call 2 1 1 0 sigma) (𝓝[>] (0:ℝ))
      (𝓝 (max (2 - 1 * Real.exp (-0 * 1)) 0)) :=
  call_sigma_to_zero_boundary 2 1 1 0 (by norm_num) (by norm_num)
    (by norm_num)
